import Mathlib

/-!
Verification of the worker-pool / job-dispatch core and the byte helpers of
the `mitosis` repository (a minimal threaded network service written in Rust).

The development shallowly embeds the Rust source:

* `src/main.rs`: `ThreadPool` (`new`, `execute`, `Drop`), `Worker::new`
  (the worker thread loop over `mpsc::Receiver::recv`), and
  `SliceExt::trim` for `[u8]`.
* `src/lib/stringbuilder.rs`: `Builder` (`append`, `len`, `string`) over a
  growable byte vector, with `ToBytes` given by UTF-8 encoding.

Machine bytes are modelled as `Nat` (all values produced stay below 256),
fallible operations (`unwrap`, `assert!`, `unreachable!`, panicking joins)
as `Except`/`Option`, and the concurrent pool as a small-step transition
system over an explicit state.
-/

namespace Mitosis

/-! ## ThreadPool construction (`ThreadPool::new`, src/main.rs lines 17-34)

A `Worker` owns an id and a shared handle to the single receiver; the Arc
identity of that shared receiver is modelled as a `Nat` tag, so two workers
hold the same shared consumer handle iff their tags are equal.  The pool
holds the workers and the (optional, so droppable) producer handle. -/

structure Worker where
  wid : Nat
  receiverHandle : Nat
  deriving Repr, DecidableEq

structure ThreadPool where
  workers : List Worker
  sender : Option Nat
  deriving Repr, DecidableEq

/-- `ThreadPool::new(size)`: `assert!(size > 0)` (a panic, modelled as
`Except.error`), then one channel is created, its receiver is wrapped in
`Arc::new(Mutex::new(..))` (shared handle tag `0`), and `size` workers with
ids `0..size` are spawned, each on a clone of that same Arc. -/
def ThreadPool.new (size : Nat) : Except String ThreadPool :=
  if size > 0 then
    Except.ok
      { workers := (List.range size).map (fun id => { wid := id, receiverHandle := 0 })
        sender := some 0 }
  else
    Except.error "assertion failed: size > 0"

/-! ## The mpsc send and `ThreadPool::execute` (src/main.rs lines 36-43)

`mpsc::Sender::send` never blocks and fails exactly when every receiver
(consumer handle) has been dropped; otherwise it appends the job to the
queue.  `execute` unwraps the optional sender and unwraps the send result,
each unwrap modelled as a potential panic. -/

def mpscSend (consumerCount : Nat) (queue : List Nat) (job : Nat) :
    Except Unit (List Nat) :=
  if consumerCount = 0 then Except.error () else Except.ok (queue ++ [job])

def ThreadPool.executeModel (sender : Option Nat) (consumerCount : Nat)
    (queue : List Nat) (job : Nat) : Except String (List Nat) :=
  match sender with
  | none => Except.error "called unwrap on None"
  | some _ =>
    match mpscSend consumerCount queue job with
    | Except.error _ => Except.error "called unwrap on send Err"
    | Except.ok q => Except.ok q

/-! ## The worker thread loop (`Worker::new`, src/main.rs lines 64-84)

The spawned thread loops: `receiver.lock().unwrap().recv()`; on `Ok(job)`
it runs the job synchronously and loops; on `Err(_)` it breaks.  The loop
is modelled as a function over the finite sequence of results that
successive `recv()` calls would return; the worker consumes the sequence up
to (and including) the first closed signal. -/

inductive RecvMsg where
  | ok (job : Nat)
  | closed
  deriving Repr, DecidableEq

inductive WorkerState where
  | running
  | terminated
  deriving Repr, DecidableEq

/-- One iteration of the worker loop body: given the `recv()` result,
return the next state of the worker thread and the job it executes in this
iteration, if any. -/
def workerStep : RecvMsg → WorkerState × Option Nat
  | RecvMsg.ok job => (WorkerState.running, some job)
  | RecvMsg.closed => (WorkerState.terminated, none)

/-- The whole worker loop: returns the jobs executed, in order, and the
state of the worker after consuming the messages (still `running` means the
closed signal was never observed, so the thread is blocked in or about to
call `recv`). -/
def runWorker : List RecvMsg → List Nat × WorkerState
  | [] => ([], WorkerState.running)
  | RecvMsg.ok job :: rest =>
    let r := runWorker rest
    (job :: r.1, r.2)
  | RecvMsg.closed :: _ => ([], WorkerState.terminated)

def RecvMsg.isOk : RecvMsg → Bool
  | RecvMsg.ok _ => true
  | RecvMsg.closed => false

def RecvMsg.jobOf : RecvMsg → Option Nat
  | RecvMsg.ok job => some job
  | RecvMsg.closed => none

/-! ## Byte-slice trim (`impl SliceExt for [u8]`, src/main.rs lines 86-110)

Bytes are `Nat` values; `b'\t' = 9` and `b' ' = 32`.  `position` and
`rposition` are the `Iterator` methods used by the source: the index of the
first, resp. last, element satisfying the predicate (both counted from the
front of the slice).  The `unreachable!()` arm and the slice expression
`&self[first..last + 1]` are modelled by `Option`. -/

def is_whitespace (c : Nat) : Bool := c == 9 || c == 32

def is_not_whitespace (c : Nat) : Bool := !is_whitespace c

def position (p : Nat → Bool) : List Nat → Option Nat
  | [] => none
  | c :: rest => if p c then some 0 else (position p rest).map (· + 1)

def rposition (p : Nat → Bool) (s : List Nat) : Option Nat :=
  (position p s.reverse).map (fun k => s.length - 1 - k)

def trim (s : List Nat) : Option (List Nat) :=
  match position is_not_whitespace s with
  | some first =>
    match rposition is_not_whitespace s with
    | some last => some ((s.drop first).take (last + 1 - first))
    | none => none
  | none => some []

/-- The intended meaning of trimming: remove the longest whitespace run
from the front, then the longest whitespace run from the back. -/
def trimmedSpec (s : List Nat) : List Nat :=
  ((s.dropWhile is_whitespace).reverse.dropWhile is_whitespace).reverse

/-! ## String builder (`src/lib/stringbuilder.rs`)

`Builder` wraps a growable byte vector.  `append` converts its argument to
UTF-8 bytes (`ToBytes for String` and `ToBytes for &str` both go through
`slice_to_vec` of `str::as_bytes`) and writes them with
`Vec::write_all(..).unwrap()`; `Write for Vec<u8>` never fails.  `string`
is `String::from_utf8`, modelled by a UTF-8 decoder.  Rust strings are
sequences of Unicode scalar values, modelled as `List Char`. -/

/-- UTF-8 encoding of one Unicode scalar value (what `str::as_bytes`
exposes per character of a Rust string). -/
def encodeChar (c : Char) : List Nat :=
  let n := c.toNat
  if n < 0x80 then [n]
  else if n < 0x800 then [0xC0 + n / 64, 0x80 + n % 64]
  else if n < 0x10000 then
    [0xE0 + n / 4096, 0x80 + n / 64 % 64, 0x80 + n % 64]
  else
    [0xF0 + n / 0x40000, 0x80 + n / 4096 % 64, 0x80 + n / 64 % 64,
      0x80 + n % 64]

def isCont (b : Nat) : Bool := 0x80 ≤ b && b < 0xC0

/-- Length of the UTF-8 sequence announced by its first byte. -/
def charLen (b : Nat) : Nat :=
  if b < 0x80 then 1 else if b < 0xE0 then 2 else if b < 0xF0 then 3 else 4

/-- Decode the scalar value of one UTF-8 sequence from its first byte `b`
and the following bytes, strictly: continuation-byte starts and overlong
two-byte forms (`b < 0xC2`), overlong three-byte forms, surrogates, and
values above `0x10FFFF` are all rejected, as `String::from_utf8` does. -/
def decode1 (b : Nat) (rest : List Nat) : Option Nat :=
  if b < 0x80 then some b
  else if b < 0xC2 then none
  else if b < 0xE0 then
    match rest with
    | b1 :: _ =>
      if isCont b1 then some ((b - 0xC0) * 64 + (b1 - 0x80)) else none
    | [] => none
  else if b < 0xF0 then
    match rest with
    | b1 :: b2 :: _ =>
      if isCont b1 && isCont b2 then
        let n := (b - 0xE0) * 4096 + (b1 - 0x80) * 64 + (b2 - 0x80)
        if 0x800 ≤ n && (n < 0xD800 || 0xE000 ≤ n) then some n else none
      else none
    | _ => none
  else if b < 0xF5 then
    match rest with
    | b1 :: b2 :: b3 :: _ =>
      if isCont b1 && isCont b2 && isCont b3 then
        let n := (b - 0xF0) * 0x40000 + (b1 - 0x80) * 4096 +
          (b2 - 0x80) * 64 + (b3 - 0x80)
        if 0x10000 ≤ n && n < 0x110000 then some n else none
      else none
    | _ => none
  else none

/-- The UTF-8 validation loop, structurally recursive on a step counter.
Every iteration consumes at least one byte, so a counter of at least the
byte length never reaches the `0` fallback arm. -/
def decodeChars : Nat → List Nat → Option (List Char)
  | _, [] => some []
  | 0, _ :: _ => none
  | fuel + 1, b :: rest =>
    match decode1 b rest with
    | some n => (decodeChars fuel (List.drop (charLen b - 1) rest)).map
        (fun cs => Char.ofNat n :: cs)
    | none => none

/-- `String::from_utf8`: `some` of the decoded characters on valid UTF-8
input, `none` modelling `Err(FromUtf8Error)`. -/
def decodeUtf8 (l : List Nat) : Option (List Char) := decodeChars l.length l

def make_copyable_buf (len : Nat) : List Nat := List.replicate len 0

/-- `copy_from_slice` panics unless source and destination have the same
length; on success the destination holds a copy of the source. -/
def copyFromSlice (dst src : List Nat) : Option (List Nat) :=
  if dst.length = src.length then some src else none

def slice_to_vec (s : List Nat) : Option (List Nat) :=
  copyFromSlice (make_copyable_buf s.length) s

/-- `ToBytes` for `String` and `&str`: the UTF-8 bytes of the text. -/
def strToBytes (s : List Char) : List Nat := (s.map encodeChar).flatten

structure Builder where
  bytes : List Nat
  deriving Repr, DecidableEq

def Builder.default : Builder := ⟨[]⟩

/-- `Write::write_all` for `Vec<u8>`: appends, and never errors. -/
def vecWriteAll (v buf : List Nat) : Except Unit (List Nat) :=
  Except.ok (v ++ buf)

/-- `Builder::append` for a `String`/`&str` argument: `to_bytes` (via
`slice_to_vec`, which panics on a length mismatch in `copy_from_slice`)
then `write_all(..).unwrap()`. -/
def Builder.append (b : Builder) (s : List Char) : Except String Builder :=
  match slice_to_vec (strToBytes s) with
  | none => Except.error "copy_from_slice length mismatch"
  | some buf =>
    match vecWriteAll b.bytes buf with
    | Except.ok v => Except.ok ⟨v⟩
    | Except.error _ => Except.error "called unwrap on write Err"

def Builder.len (b : Builder) : Nat := b.bytes.length

def Builder.string (b : Builder) : Option (List Char) := decodeUtf8 b.bytes

/-- A fresh `Builder::default()` with a sequence of `append` calls folded
over it, propagating any panic. -/
def buildAll (ss : List (List Char)) : Except String Builder :=
  ss.foldlM (fun b s => b.append s) Builder.default

/-! ## The pool as a small-step transition system

Concurrency of submitters, workers and teardown (src/main.rs lines 17-57
and 64-84) is modelled by interleaving atomic steps on an explicit state.
Jobs are identified by their submission index, so `nextId` counts
submissions.  Each worker thread is in one of three statuses: `running`
(inside the loop, in or about to call `recv()`), `busy j` (it has dequeued
job `j` whose closure is executing), `done` (it observed the closed signal
and returned).  `executed` records jobs that ran to completion.  `joined`
is the progress of the `Drop` loop: workers `0..joined` have been joined,
and joining requires the worker's thread to have terminated first, which
is what `JoinHandle::join` blocks for. -/

inductive WStatus where
  | running
  | busy (job : Nat)
  | done
  deriving Repr, DecidableEq

structure PoolState where
  queue : List Nat
  senderOpen : Bool
  nextId : Nat
  workers : List WStatus
  executed : List Nat
  joined : Nat
  deriving Repr, DecidableEq

/-- The state right after `ThreadPool::new(size)` returns: empty channel,
live sender, `size` workers all looping. -/
def PoolState.init (size : Nat) : PoolState :=
  { queue := [], senderOpen := true, nextId := 0,
    workers := List.replicate size WStatus.running, executed := [], joined := 0 }

/-- One atomic step of the system: a submitter calls `execute`, a worker
receives a job from the channel (under the receiver mutex, so one worker
at a time), a worker finishes its job's closure, a worker observes the
closed channel and breaks, the `Drop` impl drops the sender, or the `Drop`
impl joins the next worker in index order (possible exactly when that
worker's thread has terminated). -/
inductive Step : PoolState → PoolState → Prop where
  | submit (s : PoolState) :
      s.senderOpen = true →
      Step s { s with queue := s.queue ++ [s.nextId], nextId := s.nextId + 1 }
  | recvOk (s : PoolState) (l₁ l₂ : List WStatus) (j : Nat) (q : List Nat) :
      s.workers = l₁ ++ WStatus.running :: l₂ →
      s.queue = j :: q →
      Step s { s with workers := l₁ ++ WStatus.busy j :: l₂, queue := q }
  | finish (s : PoolState) (l₁ l₂ : List WStatus) (j : Nat) :
      s.workers = l₁ ++ WStatus.busy j :: l₂ →
      Step s { s with workers := l₁ ++ WStatus.running :: l₂,
                      executed := s.executed ++ [j] }
  | recvClosed (s : PoolState) (l₁ l₂ : List WStatus) :
      s.workers = l₁ ++ WStatus.running :: l₂ →
      s.senderOpen = false →
      s.queue = [] →
      Step s { s with workers := l₁ ++ WStatus.done :: l₂ }
  | closeSender (s : PoolState) :
      s.senderOpen = true →
      Step s { s with senderOpen := false }
  | joinWorker (s : PoolState) :
      s.senderOpen = false →
      s.workers[s.joined]? = some WStatus.done →
      Step s { s with joined := s.joined + 1 }

def Reachable (size : Nat) (s : PoolState) : Prop :=
  Relation.ReflTransGen Step (PoolState.init size) s

/-- The multiset of jobs currently dequeued-but-unfinished (held by busy
workers). -/
def busyIds (ws : List WStatus) : Multiset Nat :=
  ↑(ws.filterMap (fun w =>
    match w with
    | WStatus.busy j => some j
    | _ => none))

/-- The system invariant.  `acct` is the exactly-once ledger: every
submitted job id `0, ..., nextId - 1` is in exactly one place — still
queued, held by exactly one busy worker, or executed — and nothing else
ever is. -/
structure Inv (size : Nat) (s : PoolState) : Prop where
  acct : (↑s.queue + busyIds s.workers + ↑s.executed : Multiset Nat) =
    ↑(List.range s.nextId)
  wlen : s.workers.length = size
  jle : s.joined ≤ size
  jdone : ∀ i, i < s.joined → s.workers[i]? = some WStatus.done
  done_closed : (∃ w ∈ s.workers, w = WStatus.done) → s.senderOpen = false
  join_closed : 0 < s.joined → s.senderOpen = false
  alldone_queue : (∀ w ∈ s.workers, w = WStatus.done) → s.queue = []

/-! ## Panicking jobs and teardown (src/main.rs lines 66-77 and 51-55)

The worker loop does not catch panics: a panicking job unwinds out of the
`job()` call and kills the worker thread.  `JoinHandle::join` then returns
`Err`, and the `Drop` impl calls `.unwrap()` on it. -/

inductive RecvMsgP where
  | ok (job : Nat) (panics : Bool)
  | closed
  deriving Repr, DecidableEq

/-- The worker loop when jobs may panic: the jobs that ran to completion,
in order, and whether the thread ended by panicking.  A panicking job
unwinds: nothing later in the stream is received by this worker. -/
def runWorkerP : List RecvMsgP → List Nat × Bool
  | [] => ([], false)
  | RecvMsgP.ok _ true :: _ => ([], true)
  | RecvMsgP.ok job false :: rest =>
    let r := runWorkerP rest
    (job :: r.1, r.2)
  | RecvMsgP.closed :: _ => ([], false)

/-- `JoinHandle::join`: `Err` exactly when the joined thread panicked. -/
def joinThread (panicked : Bool) : Except String Unit :=
  if panicked then Except.error "thread panicked" else Except.ok ()

/-- The join loop of `Drop for ThreadPool`: `thread.join().unwrap()` for
every worker in order; `unwrap` turns the `Err` of a panicked worker into
a panic of the thread that is dropping the pool. -/
def dropJoinAll : List Bool → Except String Unit
  | [] => Except.ok ()
  | p :: rest =>
    match joinThread p with
    | Except.ok _ => dropJoinAll rest
    | Except.error e => Except.error e

/-- Number of workers still able to service submissions. -/
def aliveCount (panicked : List Bool) : Nat :=
  (panicked.filter (fun p => !p)).length

/-- A stream of receive results containing no panicking job. -/
def panicFree : List RecvMsgP → Bool
  | [] => true
  | RecvMsgP.ok _ true :: _ => false
  | RecvMsgP.ok _ false :: rest => panicFree rest
  | RecvMsgP.closed :: rest => panicFree rest

/-- A fully torn-down one-worker pool after one submission: the job was
executed, the worker observed the closed signal and was joined. -/
def sFinal : PoolState :=
  { queue := [], senderOpen := false, nextId := 1,
    workers := [WStatus.done], executed := [0], joined := 1 }

end Mitosis

namespace Mitosis

/-! ## Theorems for pool construction and submission -/

/-- C6: `ThreadPool::new` with `size == 0` is a panic (a fatal assertion
failure, not an `Ok` of an empty pool), and for every `size > 0` the
assertion passes and construction succeeds. -/
theorem new_zero_panics_pos_succeeds :
    (∃ msg, ThreadPool.new 0 = Except.error msg) ∧
      ∀ size : Nat, 0 < size → ∃ p, ThreadPool.new size = Except.ok p := by
  constructor
  · exact ⟨"assertion failed: size > 0", rfl⟩
  · intro size hpos
    refine ⟨{ workers := (List.range size).map
                (fun id => { wid := id, receiverHandle := 0 })
              sender := some 0 }, ?_⟩
    simp [ThreadPool.new, hpos]

/-- Witness for C6 at `size = 3`. -/
theorem new_zero_panics_pos_succeeds_witness :
    ∃ p, ThreadPool.new 3 = Except.ok p :=
  new_zero_panics_pos_succeeds.2 3 (by decide)

/-- C5: for every `size > 0`, construction succeeds and the resulting pool
has exactly `size` workers, whose ids are `0, 1, ..., size - 1` in order
(hence pairwise distinct and all in `[0, size)`), all bound to the same
shared consumer handle, together with a live producer handle. -/
theorem new_pool_shape (size : Nat) (hpos : 0 < size) :
    ∃ p, ThreadPool.new size = Except.ok p ∧
      p.workers.length = size ∧
      p.workers.map Worker.wid = List.range size ∧
      (∀ w ∈ p.workers, w.receiverHandle = 0) ∧
      p.sender.isSome = true := by
  refine ⟨{ workers := (List.range size).map
              (fun id => { wid := id, receiverHandle := 0 })
            sender := some 0 }, ?_, ?_, ?_, ?_, ?_⟩
  · simp [ThreadPool.new, hpos]
  · simp
  · rw [List.map_map]
    exact List.map_id _
  · intro w hw
    simp at hw
    obtain ⟨id, _, rfl⟩ := hw
    rfl
  · rfl

/-- Witness for C5 at `size = 2`. -/
theorem new_pool_shape_witness :
    ∃ p, ThreadPool.new 2 = Except.ok p ∧
      p.workers.length = 2 ∧
      p.workers.map Worker.wid = List.range 2 ∧
      (∀ w ∈ p.workers, w.receiverHandle = 0) ∧
      p.sender.isSome = true :=
  new_pool_shape 2 (by decide)

/-- C7: while the producer handle is live and at least one consumer handle
exists, `execute` succeeds without panicking, appending the job to the
queue (it is a total function of the current queue, hence non-blocking);
and the underlying send fails exactly when every consumer handle has been
dropped. -/
theorem execute_succeeds_while_live (sender : Option Nat)
    (consumerCount : Nat) (queue : List Nat) (job : Nat)
    (hs : sender.isSome = true) (hc : 0 < consumerCount) :
    ThreadPool.executeModel sender consumerCount queue job =
        Except.ok (queue ++ [job]) ∧
      ∀ cc q j, (∃ e, mpscSend cc q j = Except.error e) ↔ cc = 0 := by
  constructor
  · obtain ⟨s, rfl⟩ := Option.isSome_iff_exists.mp hs
    simp [ThreadPool.executeModel, mpscSend, Nat.pos_iff_ne_zero.mp hc]
  · intro cc q j
    constructor
    · intro ⟨e, he⟩
      by_contra hne
      simp [mpscSend, hne] at he
    · intro hcc
      exact ⟨(), by simp [mpscSend, hcc]⟩

/-- Witness for C7: a live sender with one consumer enqueues job `7` onto
queue `[5]`. -/
theorem execute_succeeds_while_live_witness :
    ThreadPool.executeModel (some 0) 1 [5] 7 = Except.ok [5, 7] ∧
      ∀ cc q j, (∃ e, mpscSend cc q j = Except.error e) ↔ cc = 0 :=
  execute_succeeds_while_live (some 0) 1 [5] 7 rfl (by decide)

/-- C4: the worker thread loop executes exactly the jobs delivered before
the first closed signal, in order, synchronously, one per loop iteration;
it terminates exactly when the closed signal is observed, and otherwise
remains running (blocked in or about to call `recv`).  A single iteration
maps `Ok(job)` to (still running, execute `job`) and the closed signal to
(terminated, execute nothing), so `running` and `terminated` are the only
states and the only transition out of `running` is on the closed signal. -/
theorem worker_loop_characterization (msgs : List RecvMsg) :
    (runWorker msgs).1 = (msgs.takeWhile RecvMsg.isOk).filterMap RecvMsg.jobOf ∧
      ((runWorker msgs).2 = WorkerState.terminated ↔ RecvMsg.closed ∈ msgs) ∧
      (∀ job, workerStep (RecvMsg.ok job) = (WorkerState.running, some job)) ∧
      workerStep RecvMsg.closed = (WorkerState.terminated, none) := by
  refine ⟨?_, ?_, fun job => rfl, rfl⟩
  · induction msgs with
    | nil => rfl
    | cons m rest ih =>
      cases m with
      | ok job => simp [runWorker, RecvMsg.isOk, RecvMsg.jobOf, ih]
      | closed => simp [runWorker, RecvMsg.isOk]
  · induction msgs with
    | nil => simp [runWorker]
    | cons m rest ih =>
      cases m with
      | ok job => simp [runWorker, ih]
      | closed => simp [runWorker]

/-! ## Lemmas about `position` -/

theorem position_eq_none_iff (p : Nat → Bool) (s : List Nat) :
    position p s = none ↔ ∀ c ∈ s, p c = false := by
  induction s with
  | nil => simp [position]
  | cons c rest ih =>
    by_cases h : p c <;> simp [position, h, ih]

theorem position_spec (p : Nat → Bool) :
    ∀ (s : List Nat) (i : Nat), position p s = some i →
      i < s.length ∧ (∃ c, s[i]? = some c ∧ p c = true) ∧
        ∀ j, j < i → ∃ c, s[j]? = some c ∧ p c = false := by
  intro s
  induction s with
  | nil => intro i h; simp [position] at h
  | cons c rest ih =>
    intro i h
    by_cases hc : p c
    · simp [position, hc] at h
      subst h
      exact ⟨by simp, ⟨c, by simp, hc⟩, fun j hj => absurd hj (by omega)⟩
    · simp [position, hc] at h
      obtain ⟨i0, h0, rfl⟩ := h
      obtain ⟨hlt, ⟨d, hd, hpd⟩, hmin⟩ := ih i0 h0
      refine ⟨by simpa using hlt, ⟨d, by simpa using hd, hpd⟩, ?_⟩
      intro j hj
      cases j with
      | zero => exact ⟨c, by simp, by simpa using hc⟩
      | succ j0 =>
        obtain ⟨d0, hd0, hpd0⟩ := hmin j0 (by omega)
        exact ⟨d0, by simpa using hd0, hpd0⟩

theorem dropWhile_not_eq_drop (p : Nat → Bool) :
    ∀ (s : List Nat) (i : Nat), position p s = some i →
      s.dropWhile (fun c => !p c) = s.drop i := by
  intro s
  induction s with
  | nil => intro i h; simp [position] at h
  | cons c rest ih =>
    intro i h
    by_cases hc : p c
    · simp [position, hc] at h
      subst h
      simp [List.dropWhile_cons, hc]
    · simp [position, hc] at h
      obtain ⟨i0, h0, rfl⟩ := h
      simp [List.dropWhile_cons, hc, ih i0 h0]

theorem position_take (p : Nat → Bool) :
    ∀ (s : List Nat) (i m : Nat), position p s = some i → i < m →
      position p (s.take m) = some i := by
  intro s
  induction s with
  | nil => intro i m h; simp [position] at h
  | cons c rest ih =>
    intro i m h him
    by_cases hc : p c
    · simp [position, hc] at h
      subst h
      cases m with
      | zero => omega
      | succ m0 => simp [position, hc]
    · simp [position, hc] at h
      obtain ⟨i0, h0, rfl⟩ := h
      cases m with
      | zero => omega
      | succ m0 => simp [position, hc, ih i0 m0 h0 (by omega)]

/-- C9: the byte-slice trim is total: the `unreachable!()` branch never
executes, and for every byte slice `trim` returns (without panicking) the
sub-slice obtained by removing the maximal run of spaces and tabs from the
front and from the back, which for an all-whitespace or empty slice is the
empty slice. -/
theorem trim_total_eq_trimmedSpec (s : List Nat) :
    trim s = some (trimmedSpec s) := by
  have hws : (fun c => !is_not_whitespace c) = is_whitespace := by
    funext c
    simp [is_not_whitespace]
  cases hpos : position is_not_whitespace s with
  | none =>
    have hall : ∀ c ∈ s, is_whitespace c = true := by
      intro c hc
      have := (position_eq_none_iff _ s).mp hpos c hc
      simpa [is_not_whitespace] using this
    have hdw : s.dropWhile is_whitespace = [] := List.dropWhile_eq_nil_iff.mpr hall
    simp [trim, hpos, trimmedSpec, hdw]
  | some first =>
    obtain ⟨hflt, ⟨c, hc, hpc⟩, -⟩ := position_spec _ s first hpos
    cases hk : position is_not_whitespace s.reverse with
    | none =>
      exfalso
      obtain ⟨hlt, hcc⟩ := List.getElem?_eq_some.mp hc
      have hmem : c ∈ s.reverse := by
        simp only [List.mem_reverse]
        exact hcc ▸ List.getElem_mem hlt
      have := (position_eq_none_iff _ _).mp hk c hmem
      rw [this] at hpc
      exact Bool.false_ne_true hpc
    | some k =>
      obtain ⟨hklt, -, hkmin⟩ := position_spec _ s.reverse k hk
      rw [List.length_reverse] at hklt
      -- k points (from the back) at the last non-whitespace byte, which
      -- cannot lie strictly before the first one: k ≤ s.length - 1 - first
      have hkle : k ≤ s.length - 1 - first := by
        by_contra hgt
        push_neg at hgt
        obtain ⟨d, hd, hpd⟩ := hkmin (s.length - 1 - first) hgt
        rw [List.getElem?_reverse (by omega)] at hd
        have hidx : s.length - 1 - (s.length - 1 - first) = first := by omega
        rw [hidx, hc] at hd
        cases hd
        rw [hpd] at hpc
        exact Bool.false_ne_true hpc
      have hkm : k < s.length - first := by omega
      have step1 : s.dropWhile is_whitespace = s.drop first := by
        rw [← hws]
        exact dropWhile_not_eq_drop _ s first hpos
      have step2 : (s.drop first).reverse = s.reverse.take (s.length - first) :=
        List.reverse_drop
      have step3 : position is_not_whitespace (s.reverse.take (s.length - first)) =
          some k := position_take _ s.reverse k (s.length - first) hk hkm
      have step4 : (s.reverse.take (s.length - first)).dropWhile is_whitespace =
          (s.reverse.take (s.length - first)).drop k := by
        rw [← hws]
        exact dropWhile_not_eq_drop _ _ k step3
      have step5 : (s.drop first).reverse.drop k =
          ((s.drop first).take (s.length - first - k)).reverse := by
        have hlen : (s.drop first).length = s.length - first := by simp
        rw [List.reverse_take]
        rw [hlen]
        congr 1
        omega
      have hspec : trimmedSpec s = (s.drop first).take (s.length - first - k) := by
        unfold trimmedSpec
        rw [step1, step2, step4, ← step2, step5, List.reverse_reverse]
      rw [hspec]
      have hidx2 : s.length - 1 - k + 1 - first = s.length - first - k := by omega
      simp [trim, hpos, rposition, hk, hidx2]

/-! ## Lemmas about the pool transition system -/

theorem coe_append (l₁ l₂ : List Nat) :
    (↑(l₁ ++ l₂) : Multiset Nat) = ↑l₁ + ↑l₂ :=
  (Multiset.coe_add l₁ l₂).symm

theorem coe_cons (a : Nat) (l : List Nat) :
    (↑(a :: l) : Multiset Nat) = {a} + ↑l := by
  rw [Multiset.singleton_add, Multiset.cons_coe]

theorem coe_single (a : Nat) : (↑([a] : List Nat) : Multiset Nat) = {a} := by
  rw [coe_cons]
  rfl

theorem busyIds_append (l₁ l₂ : List WStatus) :
    busyIds (l₁ ++ l₂) = busyIds l₁ + busyIds l₂ := by
  simp only [busyIds, List.filterMap_append]
  exact (Multiset.coe_add _ _).symm

theorem busyIds_cons_running (l : List WStatus) :
    busyIds (WStatus.running :: l) = busyIds l := by
  simp [busyIds, List.filterMap_cons]

theorem busyIds_cons_done (l : List WStatus) :
    busyIds (WStatus.done :: l) = busyIds l := by
  simp [busyIds, List.filterMap_cons]

theorem busyIds_cons_busy (j : Nat) (l : List WStatus) :
    busyIds (WStatus.busy j :: l) = {j} + busyIds l := by
  simp only [busyIds, List.filterMap_cons]
  rw [Multiset.singleton_add, Multiset.cons_coe]

theorem busyIds_replicate_running (n : Nat) :
    busyIds (List.replicate n WStatus.running) = 0 := by
  induction n with
  | zero => rfl
  | succ n ih => rw [List.replicate_succ, busyIds_cons_running, ih]

theorem busyIds_of_all_done (ws : List WStatus)
    (h : ∀ w ∈ ws, w = WStatus.done) : busyIds ws = 0 := by
  induction ws with
  | nil => rfl
  | cons w rest ih =>
    have hw : w = WStatus.done := h w (List.mem_cons_self _ _)
    subst hw
    rw [busyIds_cons_done]
    exact ih (fun x hx => h x (List.mem_cons_of_mem _ hx))

theorem getElem?_middle (l₁ l₂ : List WStatus) (a : WStatus) :
    (l₁ ++ a :: l₂)[l₁.length]? = some a := by
  rw [List.getElem?_append_right le_rfl]
  simp

theorem getElem?_middle_ne (l₁ l₂ : List WStatus) (a b : WStatus) (i : Nat)
    (h : i ≠ l₁.length) :
    (l₁ ++ a :: l₂)[i]? = (l₁ ++ b :: l₂)[i]? := by
  rcases Nat.lt_or_ge i l₁.length with hlt | hge
  · rw [List.getElem?_append_left hlt, List.getElem?_append_left hlt]
  · obtain ⟨k, hk⟩ : ∃ k, i - l₁.length = k + 1 := ⟨i - l₁.length - 1, by omega⟩
    rw [List.getElem?_append_right (by omega), List.getElem?_append_right (by omega),
      hk]
    simp

theorem inv_init (size : Nat) : Inv size (PoolState.init size) := by
  constructor
  · show (↑([] : List Nat) + busyIds (List.replicate size WStatus.running) +
      ↑([] : List Nat) : Multiset Nat) = ↑(List.range 0)
    rw [busyIds_replicate_running]
    rfl
  · exact List.length_replicate size _
  · exact Nat.zero_le size
  · intro i hi
    exact absurd hi (Nat.not_lt_zero i)
  · intro ⟨w, hw, hdone⟩
    subst hdone
    have := List.eq_of_mem_replicate hw
    cases this
  · intro h
    simp [PoolState.init] at h
  · intro _
    rfl

theorem inv_step (size : Nat) (hsize : 0 < size) (s s2 : PoolState)
    (h : Inv size s) (hst : Step s s2) : Inv size s2 := by
  cases hst with
  | submit hopen =>
    refine ⟨?_, ?_, ?_, ?_, ?_, ?_, ?_⟩ <;> dsimp only
    · rw [coe_append, coe_single, List.range_succ, coe_append, coe_single,
        ← h.acct]
      abel
    · exact h.wlen
    · exact h.jle
    · exact h.jdone
    · exact h.done_closed
    · exact h.join_closed
    · intro hall
      exfalso
      have hpos : 0 < s.workers.length := by
        rw [h.wlen]
        exact hsize
      obtain ⟨w, hwmem⟩ := List.exists_mem_of_ne_nil _ (List.length_pos.mp hpos)
      have hclosed := h.done_closed ⟨w, hwmem, hall w hwmem⟩
      rw [hclosed] at hopen
      cases hopen
  | recvOk l₁ l₂ j q hw hq =>
    refine ⟨?_, ?_, ?_, ?_, ?_, ?_, ?_⟩ <;> dsimp only
    · have hacct := h.acct
      rw [hw, hq, coe_cons, busyIds_append, busyIds_cons_running] at hacct
      rw [busyIds_append, busyIds_cons_busy, ← hacct]
      abel
    · have hlen := h.wlen
      rw [hw] at hlen
      simp only [List.length_append, List.length_cons] at hlen ⊢
      omega
    · exact h.jle
    · intro i hi
      have hpre := h.jdone i hi
      rw [hw] at hpre
      by_cases hieq : i = l₁.length
      · subst hieq
        rw [getElem?_middle] at hpre
        simp at hpre
      · rw [getElem?_middle_ne l₁ l₂ (WStatus.busy j) WStatus.running i hieq]
        exact hpre
    · intro ⟨w, hwmem, hwdone⟩
      subst hwdone
      apply h.done_closed
      refine ⟨WStatus.done, ?_, rfl⟩
      rw [hw]
      simp only [List.mem_append, List.mem_cons] at hwmem ⊢
      rcases hwmem with hm | hm | hm
      · exact Or.inl hm
      · cases hm
      · exact Or.inr (Or.inr hm)
    · exact h.join_closed
    · intro hall
      exfalso
      have hb := hall (WStatus.busy j) (by simp)
      cases hb
  | finish l₁ l₂ j hw =>
    refine ⟨?_, ?_, ?_, ?_, ?_, ?_, ?_⟩ <;> dsimp only
    · have hacct := h.acct
      rw [hw, busyIds_append, busyIds_cons_busy] at hacct
      rw [busyIds_append, busyIds_cons_running, coe_append, coe_single, ← hacct]
      abel
    · have hlen := h.wlen
      rw [hw] at hlen
      simp only [List.length_append, List.length_cons] at hlen ⊢
      omega
    · exact h.jle
    · intro i hi
      have hpre := h.jdone i hi
      rw [hw] at hpre
      by_cases hieq : i = l₁.length
      · subst hieq
        rw [getElem?_middle] at hpre
        simp at hpre
      · rw [getElem?_middle_ne l₁ l₂ WStatus.running (WStatus.busy j) i hieq]
        exact hpre
    · intro ⟨w, hwmem, hwdone⟩
      subst hwdone
      apply h.done_closed
      refine ⟨WStatus.done, ?_, rfl⟩
      rw [hw]
      simp only [List.mem_append, List.mem_cons] at hwmem ⊢
      rcases hwmem with hm | hm | hm
      · exact Or.inl hm
      · cases hm
      · exact Or.inr (Or.inr hm)
    · exact h.join_closed
    · intro hall
      exfalso
      have hb := hall WStatus.running (by simp)
      cases hb
  | recvClosed l₁ l₂ hw hclosed hqnil =>
    refine ⟨?_, ?_, ?_, ?_, ?_, ?_, ?_⟩ <;> dsimp only
    · have hacct := h.acct
      rw [hw, busyIds_append, busyIds_cons_running] at hacct
      rw [busyIds_append, busyIds_cons_done]
      exact hacct
    · have hlen := h.wlen
      rw [hw] at hlen
      simp only [List.length_append, List.length_cons] at hlen ⊢
      omega
    · exact h.jle
    · intro i hi
      have hpre := h.jdone i hi
      rw [hw] at hpre
      by_cases hieq : i = l₁.length
      · subst hieq
        exact getElem?_middle l₁ l₂ WStatus.done
      · rw [getElem?_middle_ne l₁ l₂ WStatus.done WStatus.running i hieq]
        exact hpre
    · intro _
      exact hclosed
    · intro _
      exact hclosed
    · intro _
      exact hqnil
  | closeSender hopen =>
    refine ⟨?_, ?_, ?_, ?_, ?_, ?_, ?_⟩ <;> dsimp only
    · exact h.acct
    · exact h.wlen
    · exact h.jle
    · exact h.jdone
    · intro _
      rfl
    · intro _
      rfl
    · exact h.alldone_queue
  | joinWorker hclosed hjd =>
    refine ⟨?_, ?_, ?_, ?_, ?_, ?_, ?_⟩ <;> dsimp only
    · exact h.acct
    · exact h.wlen
    · obtain ⟨hlt, -⟩ := List.getElem?_eq_some.mp hjd
      have hlen := h.wlen
      omega
    · intro i hi
      by_cases hieq : i = s.joined
      · subst hieq
        exact hjd
      · exact h.jdone i (by omega)
    · exact h.done_closed
    · intro _
      exact hclosed
    · exact h.alldone_queue

/-- Every reachable state of a pool of positive size satisfies the
invariant. -/
theorem reachable_inv (size : Nat) (hsize : 0 < size) (s : PoolState)
    (h : Reachable size s) : Inv size s := by
  induction h with
  | refl => exact inv_init size
  | tail hab hbc ih => exact inv_step size hsize _ _ ih hbc

/-! ## Lemmas about the UTF-8 codec -/

theorem char_toNat_valid (c : Char) :
    c.toNat < 0xD800 ∨ (0xE000 ≤ c.toNat ∧ c.toNat < 0x110000) := by
  rcases c.valid with h | ⟨h1, h2⟩
  · exact Or.inl h
  · exact Or.inr ⟨h1, h2⟩

theorem isCont_of (m : Nat) (h : m < 64) : isCont (0x80 + m) = true := by
  simp only [isCont, Bool.and_eq_true, decide_eq_true_eq]
  omega

/-- Decoding inverts encoding one character at a time, with any count of
remaining steps that exceeds the remaining byte count. -/
theorem decodeChars_encodeChar (c : Char) (bs : List Nat) (fuel : Nat)
    (hfuel : bs.length < fuel) :
    decodeChars fuel (encodeChar c ++ bs) =
      (decodeChars (fuel - 1) bs).map (fun cs => c :: cs) := by
  have hval := char_toNat_valid c
  have hofn : Char.ofNat c.toNat = c := Char.ofNat_toNat c
  obtain ⟨f, rfl⟩ : ∃ f, fuel = f + 1 := ⟨fuel - 1, by omega⟩
  simp only [Nat.add_sub_cancel]
  by_cases h1 : c.toNat < 0x80
  · have hE : encodeChar c = [c.toNat] := by
      simp only [encodeChar]
      rw [if_pos h1]
    rw [hE, List.cons_append, List.nil_append, decodeChars]
    have hd : decode1 c.toNat bs = some c.toNat := by
      simp only [decode1]
      rw [if_pos h1]
    rw [hd]
    have hcl : charLen c.toNat = 1 := by
      simp only [charLen]
      rw [if_pos h1]
    rw [hcl]
    simp only [Nat.sub_self, List.drop_zero, hofn]
  · by_cases h2 : c.toNat < 0x800
    · have hE : encodeChar c = [0xC0 + c.toNat / 64, 0x80 + c.toNat % 64] := by
        simp only [encodeChar]
        rw [if_neg h1, if_pos h2]
      rw [hE, List.cons_append, List.cons_append, List.nil_append, decodeChars]
      have hd : decode1 (0xC0 + c.toNat / 64) ((0x80 + c.toNat % 64) :: bs) =
          some c.toNat := by
        simp only [decode1]
        rw [if_neg (by omega), if_neg (by omega), if_pos (by omega),
          if_pos (isCont_of _ (by omega))]
        have hn : (0xC0 + c.toNat / 64 - 0xC0) * 64 +
            (0x80 + c.toNat % 64 - 0x80) = c.toNat := by
          omega
        rw [hn]
      rw [hd]
      have hcl : charLen (0xC0 + c.toNat / 64) = 2 := by
        simp only [charLen]
        rw [if_neg (by omega), if_pos (by omega)]
      rw [hcl]
      simp only [List.drop_succ_cons, List.drop_zero, hofn]
    · by_cases h3 : c.toNat < 0x10000
      · have hE : encodeChar c =
            [0xE0 + c.toNat / 4096, 0x80 + c.toNat / 64 % 64, 0x80 + c.toNat % 64] := by
          simp only [encodeChar]
          rw [if_neg h1, if_neg h2, if_pos h3]
        rw [hE, List.cons_append, List.cons_append, List.cons_append,
          List.nil_append, decodeChars]
        have hd : decode1 (0xE0 + c.toNat / 4096)
            ((0x80 + c.toNat / 64 % 64) :: (0x80 + c.toNat % 64) :: bs) =
            some c.toNat := by
          simp only [decode1]
          rw [if_neg (by omega), if_neg (by omega), if_neg (by omega),
            if_pos (by omega)]
          rw [if_pos (by
            simp only [Bool.and_eq_true]
            exact ⟨isCont_of _ (by omega), isCont_of _ (by omega)⟩)]
          have hn : (0xE0 + c.toNat / 4096 - 0xE0) * 4096 +
              (0x80 + c.toNat / 64 % 64 - 0x80) * 64 +
              (0x80 + c.toNat % 64 - 0x80) = c.toNat := by
            omega
          rw [if_pos (by
            simp only [hn, Bool.and_eq_true, Bool.or_eq_true, decide_eq_true_eq]
            omega)]
          rw [hn]
        rw [hd]
        have hcl : charLen (0xE0 + c.toNat / 4096) = 3 := by
          simp only [charLen]
          rw [if_neg (by omega), if_neg (by omega), if_pos (by omega)]
        rw [hcl]
        simp only [List.drop_succ_cons, List.drop_zero, hofn]
      · have h4 : c.toNat < 0x110000 := by omega
        have hE : encodeChar c =
            [0xF0 + c.toNat / 0x40000, 0x80 + c.toNat / 4096 % 64,
              0x80 + c.toNat / 64 % 64, 0x80 + c.toNat % 64] := by
          simp only [encodeChar]
          rw [if_neg h1, if_neg h2, if_neg h3]
        rw [hE, List.cons_append, List.cons_append, List.cons_append,
          List.cons_append, List.nil_append, decodeChars]
        have hd : decode1 (0xF0 + c.toNat / 0x40000)
            ((0x80 + c.toNat / 4096 % 64) :: (0x80 + c.toNat / 64 % 64) ::
              (0x80 + c.toNat % 64) :: bs) = some c.toNat := by
          simp only [decode1]
          rw [if_neg (by omega), if_neg (by omega), if_neg (by omega),
            if_neg (by omega), if_pos (by omega)]
          rw [if_pos (by
            simp only [Bool.and_eq_true]
            exact ⟨⟨isCont_of _ (by omega), isCont_of _ (by omega)⟩,
              isCont_of _ (by omega)⟩)]
          have hn : (0xF0 + c.toNat / 0x40000 - 0xF0) * 0x40000 +
              (0x80 + c.toNat / 4096 % 64 - 0x80) * 4096 +
              (0x80 + c.toNat / 64 % 64 - 0x80) * 64 +
              (0x80 + c.toNat % 64 - 0x80) = c.toNat := by
            omega
          rw [if_pos (by
            simp only [hn, Bool.and_eq_true, decide_eq_true_eq]
            omega)]
          rw [hn]
        rw [hd]
        have hcl : charLen (0xF0 + c.toNat / 0x40000) = 4 := by
          simp only [charLen]
          rw [if_neg (by omega), if_neg (by omega), if_neg (by omega)]
        rw [hcl]
        simp only [List.drop_succ_cons, List.drop_zero, hofn]

theorem encodeChar_length_pos (c : Char) : 1 ≤ (encodeChar c).length := by
  simp only [encodeChar]
  split_ifs <;> simp

theorem decodeChars_strToBytes (l : List Char) :
    ∀ fuel, (strToBytes l).length ≤ fuel → decodeChars fuel (strToBytes l) = some l := by
  induction l with
  | nil =>
    intro fuel h
    have hnil : strToBytes [] = [] := rfl
    rw [hnil]
    cases fuel <;> rfl
  | cons c cs ih =>
    intro fuel h
    have hsplit : strToBytes (c :: cs) = encodeChar c ++ strToBytes cs := by
      simp [strToBytes]
    rw [hsplit] at h ⊢
    rw [List.length_append] at h
    have hpos := encodeChar_length_pos c
    have hfuel : (strToBytes cs).length < fuel := by omega
    rw [decodeChars_encodeChar c _ fuel hfuel]
    rw [ih (fuel - 1) (by omega)]
    rfl

theorem decodeUtf8_strToBytes (l : List Char) :
    decodeUtf8 (strToBytes l) = some l :=
  decodeChars_strToBytes l _ le_rfl

theorem strToBytes_flatten (ss : List (List Char)) :
    (ss.map strToBytes).flatten = strToBytes ss.flatten := by
  induction ss with
  | nil => rfl
  | cons s rest ih =>
    simp [strToBytes, ih]

/-! ## Theorems for the string builder -/

theorem append_ok (b : Builder) (s : List Char) :
    b.append s = Except.ok ⟨b.bytes ++ strToBytes s⟩ := by
  simp [Builder.append, slice_to_vec, copyFromSlice, make_copyable_buf,
    vecWriteAll]

theorem foldl_append_ok (ss : List (List Char)) :
    ∀ b0 : Builder,
      ss.foldlM (fun b s => b.append s) b0 =
        Except.ok ⟨b0.bytes ++ (ss.map strToBytes).flatten⟩ := by
  induction ss with
  | nil =>
    intro b0
    show Except.ok b0 = Except.ok { bytes := b0.bytes ++ [].flatten }
    simp
  | cons s rest ih =>
    intro b0
    rw [List.foldlM_cons, append_ok]
    have hbind : ∀ (x : Builder) (f : Builder → Except String Builder),
        (Except.ok x >>= f) = f x := fun x f => rfl
    rw [hbind, ih]
    simp

/-- C10: the builder round-trips UTF-8 text: for every sequence of
`String`/`&str` values appended to a fresh builder, every `append` succeeds
(the whole fold returns `Ok`, with no panic from `copy_from_slice` or
`write_all(..).unwrap()`), `len()` equals the total number of bytes
appended, and `string()` returns `Ok` of the concatenation of the appended
values in order. -/
theorem builder_roundtrip (ss : List (List Char)) :
    ∃ b, buildAll ss = Except.ok b ∧
      b.len = (ss.map (fun s => (strToBytes s).length)).sum ∧
      b.string = some ss.flatten := by
  refine ⟨⟨(ss.map strToBytes).flatten⟩, ?_, ?_, ?_⟩
  · unfold buildAll
    rw [foldl_append_ok]
    rfl
  · simp [Builder.len, Function.comp_def]
  · show decodeUtf8 ((ss.map strToBytes).flatten) = some ss.flatten
    rw [strToBytes_flatten]
    exact decodeUtf8_strToBytes _

/-! ## Theorems about the pool transition system -/

theorem all_done_of_joined (size : Nat) (s : PoolState) (hinv : Inv size s)
    (hj : s.joined = size) : ∀ w ∈ s.workers, w = WStatus.done := by
  intro w hw
  obtain ⟨i, hi⟩ := List.mem_iff_getElem?.mp hw
  obtain ⟨hlt, -⟩ := List.getElem?_eq_some.mp hi
  have hjd := hinv.jdone i (by rw [hj, ← hinv.wlen]; exact hlt)
  rw [hi] at hjd
  cases hjd
  rfl

/-- C1: in every reachable state the submitted jobs `0..nextId` are
partitioned exactly between the queue, the busy workers and the executed
list (each submitted job is in exactly one place, never duplicated, never
dropped), and once teardown has joined all `size` workers the multiset of
executed jobs is exactly the multiset of submitted jobs, so the number of
executions equals the number N of submissions. -/
theorem jobs_run_exactly_once (size : Nat) (s : PoolState)
    (hsize : 0 < size) (hreach : Reachable size s) :
    (↑s.queue + busyIds s.workers + ↑s.executed : Multiset Nat) =
        ↑(List.range s.nextId) ∧
      (s.joined = size →
        (↑s.executed : Multiset Nat) = ↑(List.range s.nextId) ∧
          s.executed.length = s.nextId) := by
  have hinv := reachable_inv size hsize s hreach
  refine ⟨hinv.acct, ?_⟩
  intro hj
  have halldone := all_done_of_joined size s hinv hj
  have hq := hinv.alldone_queue halldone
  have hb := busyIds_of_all_done s.workers halldone
  have hacct := hinv.acct
  rw [hq, hb] at hacct
  simp only [Multiset.coe_nil, zero_add, add_zero] at hacct
  refine ⟨hacct, ?_⟩
  have hcard := congrArg Multiset.card hacct
  simpa [Multiset.coe_card] using hcard

/-- C2: teardown closes the producer first and only then joins: in every
reachable state, if any worker has been joined then the sender is already
dropped; the joined workers are exactly a downward-closed range of indices
each of which had terminated when joined; and once the sender is closed
and the queue has drained, every worker still in its receive loop observes
the closed signal (the terminating transition is the step available to
it). -/
theorem teardown_closes_sender_then_joins (size : Nat) (s : PoolState)
    (hsize : 0 < size) (hreach : Reachable size s) :
    (0 < s.joined → s.senderOpen = false) ∧
      (∀ i, i < s.joined → s.workers[i]? = some WStatus.done) ∧
      (∀ l₁ l₂, s.workers = l₁ ++ WStatus.running :: l₂ →
        s.senderOpen = false → s.queue = [] →
        Step s { s with workers := l₁ ++ WStatus.done :: l₂ }) := by
  have hinv := reachable_inv size hsize s hreach
  exact ⟨hinv.join_closed, hinv.jdone,
    fun l₁ l₂ hw hc hq => Step.recvClosed s l₁ l₂ hw hc hq⟩

/-- C3: teardown never cancels an in-flight job: when teardown has
returned (all `size` workers joined), every worker has terminated (no
thread remains alive), no worker still holds a dequeued job, and the queue
is drained — every job a worker dequeued ran to completion before its
thread was joined. -/
theorem teardown_waits_for_completion (size : Nat) (s : PoolState)
    (hsize : 0 < size) (hreach : Reachable size s) (hj : s.joined = size) :
    (∀ w ∈ s.workers, w = WStatus.done) ∧
      busyIds s.workers = 0 ∧ s.queue = [] := by
  have hinv := reachable_inv size hsize s hreach
  have halldone := all_done_of_joined size s hinv hj
  exact ⟨halldone, busyIds_of_all_done s.workers halldone,
    hinv.alldone_queue halldone⟩

theorem reach_sFinal : Reachable 1 sFinal := by
  have t0 : Reachable 1 (PoolState.init 1) := Relation.ReflTransGen.refl
  have t1 : Reachable 1
      { queue := [0], senderOpen := true, nextId := 1,
        workers := [WStatus.running], executed := [], joined := 0 } :=
    Relation.ReflTransGen.tail t0 (Step.submit _ rfl)
  have t2 : Reachable 1
      { queue := [0], senderOpen := false, nextId := 1,
        workers := [WStatus.running], executed := [], joined := 0 } :=
    Relation.ReflTransGen.tail t1 (Step.closeSender _ rfl)
  have t3 : Reachable 1
      { queue := [], senderOpen := false, nextId := 1,
        workers := [WStatus.busy 0], executed := [], joined := 0 } :=
    Relation.ReflTransGen.tail t2 (Step.recvOk _ [] [] 0 [] rfl rfl)
  have t4 : Reachable 1
      { queue := [], senderOpen := false, nextId := 1,
        workers := [WStatus.running], executed := [0], joined := 0 } :=
    Relation.ReflTransGen.tail t3 (Step.finish _ [] [] 0 rfl)
  have t5 : Reachable 1
      { queue := [], senderOpen := false, nextId := 1,
        workers := [WStatus.done], executed := [0], joined := 0 } :=
    Relation.ReflTransGen.tail t4 (Step.recvClosed _ [] [] rfl rfl rfl)
  exact Relation.ReflTransGen.tail t5 (Step.joinWorker _ rfl rfl)

/-- Witness for C1: the torn-down one-worker pool `sFinal` with one
submission has executed exactly job `0`. -/
theorem jobs_run_exactly_once_witness :
    0 < 1 ∧ Reachable 1 sFinal ∧
      ((↑sFinal.queue + busyIds sFinal.workers + ↑sFinal.executed :
            Multiset Nat) = ↑(List.range sFinal.nextId) ∧
        (sFinal.joined = 1 →
          (↑sFinal.executed : Multiset Nat) = ↑(List.range sFinal.nextId) ∧
            sFinal.executed.length = sFinal.nextId)) :=
  ⟨Nat.one_pos, reach_sFinal,
    jobs_run_exactly_once 1 sFinal Nat.one_pos reach_sFinal⟩

/-- Witness for C2 at the reachable state `sFinal`. -/
theorem teardown_closes_sender_then_joins_witness :
    0 < 1 ∧ Reachable 1 sFinal ∧
      ((0 < sFinal.joined → sFinal.senderOpen = false) ∧
        (∀ i, i < sFinal.joined →
          sFinal.workers[i]? = some WStatus.done) ∧
        (∀ l₁ l₂, sFinal.workers = l₁ ++ WStatus.running :: l₂ →
          sFinal.senderOpen = false → sFinal.queue = [] →
          Step sFinal { sFinal with workers := l₁ ++ WStatus.done :: l₂ })) :=
  ⟨Nat.one_pos, reach_sFinal,
    teardown_closes_sender_then_joins 1 sFinal Nat.one_pos reach_sFinal⟩

/-- Witness for C3 at the reachable state `sFinal`, whose single worker is
joined. -/
theorem teardown_waits_for_completion_witness :
    0 < 1 ∧ Reachable 1 sFinal ∧ sFinal.joined = 1 ∧
      ((∀ w ∈ sFinal.workers, w = WStatus.done) ∧
        busyIds sFinal.workers = 0 ∧ sFinal.queue = []) :=
  ⟨Nat.one_pos, reach_sFinal, rfl,
    teardown_waits_for_completion 1 sFinal Nat.one_pos reach_sFinal rfl⟩

/-! ## Theorems about panicking jobs -/

theorem runWorkerP_no_panic (ms : List RecvMsgP)
    (h : panicFree ms = true) : (runWorkerP ms).2 = false := by
  induction ms with
  | nil => rfl
  | cons m rest ih =>
    cases m with
    | closed => rfl
    | ok a pan =>
      cases pan with
      | true => exact absurd h (by simp [panicFree])
      | false =>
        show (runWorkerP rest).2 = false
        exact ih h

theorem runWorkerP_panic_cuts (jobs : List Nat) (j : Nat)
    (post : List RecvMsgP) :
    runWorkerP (jobs.map (fun a => RecvMsgP.ok a false) ++
      RecvMsgP.ok j true :: post) = (jobs, true) := by
  induction jobs with
  | nil => rfl
  | cons a rest ih =>
    simp only [List.map_cons, List.cons_append, runWorkerP, List.append_eq, ih]

/-- C8 counterexample: a pool with a single worker whose one job panics.
The worker thread dies, `join` returns `Err`, and the `Drop` impl unwraps
it — teardown itself panics, so a panicking job does crash the pool when
it is dropped, contradicting the claim that the pool is never crashed. -/
theorem job_panic_crashes_teardown :
    (runWorkerP [RecvMsgP.ok 0 true]).2 = true ∧
      dropJoinAll [(runWorkerP [RecvMsgP.ok 0 true]).2] =
        Except.error "thread panicked" :=
  ⟨rfl, rfl⟩

/-- C8 amended: a panicking job is not caught, retried or reported; it
terminates only its own worker thread (jobs completed before it are kept,
nothing after it runs on that worker), other workers — any workers whose
streams contain no panicking job — are unaffected and do not panic, and
the number of workers able to service subsequent submissions shrinks by
exactly one.  While the pool is running nothing else crashes; however,
when the pool is dropped, the join loop of `Drop` panics on the dead
worker because `join()` returns `Err` and is unwrapped. -/
theorem job_panic_kills_only_its_worker (jobs : List Nat) (j : Nat)
    (post : List RecvMsgP) (others : List (List RecvMsgP))
    (hothers : ∀ ms ∈ others, panicFree ms = true) :
    runWorkerP (jobs.map (fun a => RecvMsgP.ok a false) ++
        RecvMsgP.ok j true :: post) = (jobs, true) ∧
      (∀ ms ∈ others, (runWorkerP ms).2 = false) ∧
      aliveCount (true :: others.map (fun ms => (runWorkerP ms).2)) =
        others.length ∧
      ∃ e, dropJoinAll (true :: others.map (fun ms => (runWorkerP ms).2)) =
        Except.error e := by
  have hno : ∀ ms ∈ others, (runWorkerP ms).2 = false :=
    fun ms hms => runWorkerP_no_panic ms (hothers ms hms)
  refine ⟨runWorkerP_panic_cuts jobs j post, hno, ?_, "thread panicked", rfl⟩
  show ((true :: others.map fun ms => (runWorkerP ms).2).filter
    (fun p => !p)).length = others.length
  rw [List.filter_cons]
  simp only [Bool.not_true, ite_false, if_false, cond_false]
  rw [List.filter_eq_self.mpr]
  · exact List.length_map others _
  · intro p hp
    obtain ⟨ms, hms, rfl⟩ := List.mem_map.mp hp
    rw [hno ms hms]
    rfl

/-- Witness for the amended C8: one worker completes job `5` then job `7`
panics; a second worker runs job `3` and exits cleanly; one of two workers
remains alive and teardown panics. -/
theorem job_panic_kills_only_its_worker_witness :
    (∀ ms ∈ [[RecvMsgP.ok 3 false, RecvMsgP.closed]],
        panicFree ms = true) ∧
      (runWorkerP ([5].map (fun a => RecvMsgP.ok a false) ++
          RecvMsgP.ok 7 true :: []) = ([5], true) ∧
        (∀ ms ∈ [[RecvMsgP.ok 3 false, RecvMsgP.closed]],
          (runWorkerP ms).2 = false) ∧
        aliveCount (true :: [[RecvMsgP.ok 3 false, RecvMsgP.closed]].map
            (fun ms => (runWorkerP ms).2)) =
          [[RecvMsgP.ok 3 false, RecvMsgP.closed]].length ∧
        ∃ e, dropJoinAll (true ::
            [[RecvMsgP.ok 3 false, RecvMsgP.closed]].map
              (fun ms => (runWorkerP ms).2)) = Except.error e) :=
  ⟨by decide,
    job_panic_kills_only_its_worker [5] 7 []
      [[RecvMsgP.ok 3 false, RecvMsgP.closed]] (by decide)⟩

end Mitosis
